import Mathlib

/-!
Shallow embedding of the rfbutton library (src/src/lib.rs), a decoder for
433 MHz PWM remote codes, together with proofs about it.

Modelling conventions:
* Rust u16 / u32 / u8 machine integers are modelled as Nat with explicit
  reductions modulo 2^16 / 2^32 / 2^8 exactly where the Rust operation wraps
  in a release build (`iter().sum::<u16>()`, the addition inside `round_div`,
  `length += 1` on a u8; `value << 1` on a u32 discards the top bit in every
  build profile).
* A Rust runtime panic (division by zero in `round_div` when the estimated
  short duration is 0) is modelled by the explicit result `DecodeResult.trap`.
* Input pulse sequences are `List Nat`; the u16 type of the Rust slice
  elements appears as the hypothesis that every element is below 65536 where
  a theorem needs it.
-/

namespace RfButton

/-- The break threshold in microseconds, `BREAK_PULSE_LENGTH` in lib.rs. -/
def BREAK_PULSE_LENGTH : Nat := 3000

/-- Modulus of the Rust u16 type. -/
def U16_MOD : Nat := 65536

/-- Modulus of the Rust u32 type. -/
def U32_MOD : Nat := 4294967296

/-- Modulus of the Rust u8 type. -/
def U8_MOD : Nat := 256

/-- The error enumeration of lib.rs. -/
inductive Error where
  | NoStart
  | TooShort
  | InvalidPulseLength (high low : Nat)
  deriving DecidableEq

/-- A decoded RF button code: `value: u32` and `length: u8` in lib.rs. -/
structure Code where
  value : Nat
  length : Nat
  deriving DecidableEq

/-- Result of running `decode`: an Ok code, a typed error, or a Rust
runtime panic (`trap`). -/
inductive DecodeResult where
  | ok (c : Code)
  | err (e : Error)
  | trap
  deriving DecidableEq

/-- Embedding of `round_div` from lib.rs, instantiated at u16: the addition
`dividend + divisor / 2` wraps modulo 2^16 in a release build.  The Rust
division panics when `divisor = 0`; that case is handled by the caller
(`decodeLoop`), which returns `trap` before calling this function. -/
def round_div (dividend divisor : Nat) : Nat :=
  ((dividend + divisor / 2) % U16_MOD) / divisor

/-- Embedding of the `while let` bit-extraction loop inside `decode`:
consume intervals two at a time, classify each pair against the estimated
short duration, and accumulate bits MSB-first.  The u32 shift wraps modulo
2^32 and the u8 length increment wraps modulo 2^8.  When `short_duration`
is 0 the first call of `round_div` divides by zero: modelled as `trap`. -/
def decodeLoop (short_duration value length : Nat) : List Nat → DecodeResult
  | high :: low :: rest =>
    if short_duration = 0 then .trap
    else
      let high_period := round_div high short_duration
      let low_period := round_div low short_duration
      if high_period = 3 ∧ low_period = 1 then
        decodeLoop short_duration ((value * 2 + 1) % U32_MOD) ((length + 1) % U8_MOD) rest
      else if high_period = 1 ∧ low_period = 3 then
        decodeLoop short_duration ((value * 2) % U32_MOD) ((length + 1) % U8_MOD) rest
      else if BREAK_PULSE_LENGTH < high ∨ BREAK_PULSE_LENGTH < low then
        .ok ⟨value, length⟩
      else
        .err (.InvalidPulseLength high low)
  | _ => .ok ⟨value, length⟩

/-- Embedding of `pulses[0..4].iter().sum::<u16>() / 8` from `decode`:
the four post-break pulses are summed in a u16 accumulator, which wraps
modulo 2^16 in a release build. -/
def shortDuration (rest : List Nat) : Nat :=
  ((rest.take 4).sum % U16_MOD) / 8

/-- Embedding of `decode` from lib.rs.  `position (> BREAK) + 1` followed by
the slice `pulses[start..]` is expressed with `dropWhile`: the first element
of the remaining list is the break pulse itself, the tail is the post-break
stream. -/
def decode (pulses : List Nat) : DecodeResult :=
  match pulses.dropWhile (fun p => decide (p ≤ BREAK_PULSE_LENGTH)) with
  | [] => .err .NoStart
  | _ :: rest =>
    if rest.length < 4 then .err .TooShort
    else decodeLoop (shortDuration rest) 0 0 rest

/-- The post-break part of the input: everything after the first interval
that exceeds the break threshold. -/
def postBreak (pulses : List Nat) : List Nat :=
  (pulses.dropWhile (fun p => decide (p ≤ BREAK_PULSE_LENGTH))).tail

/-- Rounded division as §4.1 of the specification words it: `(x + d/2) / d`
in exact integer arithmetic, with no 16-bit wrap-around. -/
def spec_round_div (x d : Nat) : Nat :=
  (x + d / 2) / d

/-- Unit estimation as §4.1 of the specification words it: the exact
mathematical sum of the first four post-break intervals divided by 8
(a wide accumulator, no 16-bit overflow). -/
def specShortDuration (rest : List Nat) : Nat :=
  (rest.take 4).sum / 8

/-- The bit-extraction loop as §4.1 of the specification words it: the same
classification order, but with exact arithmetic inside the rounded division
and no division-by-zero trap (a quotient with divisor 0 is taken as 0 and
therefore fails classification, as §4.1 step 5 asserts).  The accumulators
keep the u32 / u8 widths that §4.2 prescribes for the stored fields. -/
def specDecodeLoop (T value length : Nat) : List Nat → DecodeResult
  | high :: low :: rest =>
    let hp := spec_round_div high T
    let lp := spec_round_div low T
    if hp = 3 ∧ lp = 1 then
      specDecodeLoop T ((value * 2 + 1) % U32_MOD) ((length + 1) % U8_MOD) rest
    else if hp = 1 ∧ lp = 3 then
      specDecodeLoop T ((value * 2) % U32_MOD) ((length + 1) % U8_MOD) rest
    else if BREAK_PULSE_LENGTH < high ∨ BREAK_PULSE_LENGTH < low then
      .ok ⟨value, length⟩
    else
      .err (.InvalidPulseLength high low)
  | _ => .ok ⟨value, length⟩

/-- The decode algorithm exactly as §4.1 of the specification describes it:
frame synchronization, length gate, exact unit estimation, bit extraction. -/
def specDecode (pulses : List Nat) : DecodeResult :=
  match pulses.dropWhile (fun p => decide (p ≤ BREAK_PULSE_LENGTH)) with
  | [] => .err .NoStart
  | _ :: rest =>
    if rest.length < 4 then .err .TooShort
    else specDecodeLoop (specShortDuration rest) 0 0 rest

/-- Errors of the optional serde facet of lib.rs: the deserializer rejects
strings longer than 8 characters and strings that fail `u32::from_str_radix`;
the serializer rejects a length that is not a multiple of 4. -/
inductive SerdeError where
  | tooLong
  | parseError
  | lengthNotMultipleOf4
  deriving DecidableEq

/-- Value of one hexadecimal character, as `char::to_digit(16)` computes it
inside `u32::from_str_radix`: digits 0-9, lowercase a-f and uppercase A-F. -/
def hexDigitVal (c : Char) : Option Nat :=
  let n := c.toNat
  if 48 ≤ n ∧ n ≤ 57 then some (n - 48)
  else if 97 ≤ n ∧ n ≤ 102 then some (n - 87)
  else if 65 ≤ n ∧ n ≤ 70 then some (n - 55)
  else none

/-- The digit-accumulation loop of `u32::from_str_radix`: left to right,
`acc = acc * 16 + digit`, failing on the first non-digit character. -/
def parseHexDigits : List Char → Nat → Option Nat
  | [], acc => some acc
  | c :: rest, acc =>
    match hexDigitVal c with
    | some d => parseHexDigits rest (acc * 16 + d)
    | none => none

/-- Parse a digit string as a u32: the digit loop followed by the overflow
check of `u32::from_str_radix` (a value not fitting the target type is a
positive-overflow error). -/
def parseU32Hex (digits : List Char) : Option Nat :=
  match parseHexDigits digits 0 with
  | some v => if v < U32_MOD then some v else none
  | none => none

/-- Embedding of `u32::from_str_radix(s, 16)`: an optional leading plus sign
followed by at least one base-16 digit.  A lone sign is rejected, and a
leading minus sign for this unsigned target type fails the digit parse
exactly as any other non-digit character does. -/
def fromStrRadix16 (s : List Char) : Option Nat :=
  match s with
  | [] => none
  | c :: rest =>
    if c = '+' then
      if rest.isEmpty then none else parseU32Hex rest
    else
      parseU32Hex (c :: rest)

/-- Embedding of the serde `Deserialize` impl for `Code` in lib.rs: reject
strings of more than 8 characters, parse base-16, set `length` to four bits
per character of the input string. -/
def deserializeCode (s : List Char) : Except SerdeError Code :=
  if s.length > 8 then .error .tooLong
  else
    match fromStrRadix16 s with
    | some v => .ok ⟨v, s.length * 4⟩
    | none => .error .parseError

/-- Lowercase hexadecimal digit character for a value below 16, as the Rust
`{:x}` formatter emits it. -/
def hexChar (n : Nat) : Char :=
  if n < 10 then Char.ofNat (48 + n) else Char.ofNat (87 + n)

/-- Big-endian lowercase hexadecimal digits of `n`, accumulator style, with
fuel: the digit-emission loop of the Rust `{:x}` formatter.  With fuel at
least 1 the value 0 renders as the single character 0. -/
def hexDigitsAux : Nat → Nat → List Char → List Char
  | 0, _, acc => acc
  | fuel + 1, n, acc =>
    let d := hexChar (n % 16)
    if n / 16 = 0 then d :: acc
    else hexDigitsAux fuel (n / 16) (d :: acc)

/-- The lowercase hexadecimal rendering of `n`, shortest form ("0" for 0). -/
def hexRepr (n : Nat) : List Char :=
  hexDigitsAux (n + 1) n []

/-- Embedding of `format!("{:01$x}", value, width)`: the shortest lowercase
hexadecimal form, zero-padded on the left to a minimum width.  A value that
needs more than `width` digits is not truncated. -/
def toHexMinWidth (n width : Nat) : List Char :=
  let ds := hexRepr n
  List.replicate (width - ds.length) '0' ++ ds

/-- Embedding of the serde `Serialize` impl for `Code` in lib.rs: reject a
length that is not a multiple of 4, otherwise format the value in lowercase
hexadecimal zero-padded to minimum width `length / 4`. -/
def serializeCode (c : Code) : Except SerdeError (List Char) :=
  if c.length % 4 ≠ 0 then .error .lengthNotMultipleOf4
  else .ok (toHexMinWidth c.value (c.length / 4))

deriving instance DecidableEq for Except

/-- Decidable test that a character is one of the sixteen lowercase
hexadecimal digit characters. -/
def isLowerHexDigit (c : Char) : Bool :=
  (List.range 16).any fun d => c = hexChar d

/-- The acceptance set of the deserializer, stated independently: an
optional leading plus sign followed by at least one base-16 digit (of
either letter case). -/
def acceptHex (s : List Char) : Bool :=
  match s with
  | [] => false
  | c :: rest =>
    if c = '+' then !rest.isEmpty && rest.all fun ch => (hexDigitVal ch).isSome
    else (c :: rest).all fun ch => (hexDigitVal ch).isSome

example : decode [] = .err .NoStart := by decide
example : decode [300, 10000, 1000, 333, 1000, 333, 333, 1000, 1000, 333] = .ok ⟨13, 4⟩ := by
  decide
example : decode [300, 10000, 1000, 333, 1000, 333, 333, 1000, 1000, 333, 333, 10000, 1000, 333] =
    .ok ⟨13, 4⟩ := by decide
example : decode [4000, 1, 1, 1, 1] = .trap := by decide
example : decode [4000, 9000, 3000, 9000, 3000] = .ok ⟨3, 2⟩ := by decide
example : decode [4000, 2997, 999, 65000, 4532] = .ok ⟨1, 1⟩ := by decide
example : specDecode [4000, 2997, 999, 65000, 4532] = .err (.InvalidPulseLength 2997 999) := by
  decide
example : decode [5000, 500, 500, 500, 500] = .err (.InvalidPulseLength 500 500) := by decide
example : serializeCode ⟨0, 12⟩ = .ok ['0', '0', '0'] := by decide
example : serializeCode ⟨0xff112233, 32⟩ =
    .ok ['f', 'f', '1', '1', '2', '2', '3', '3'] := by decide
example : serializeCode ⟨0xf, 4⟩ = .ok ['f'] := by decide
example : serializeCode ⟨511, 4⟩ = .ok ['1', 'f', 'f'] := by decide
example : serializeCode ⟨0, 0⟩ = .ok ['0'] := by decide
example : serializeCode ⟨7, 3⟩ = .error .lengthNotMultipleOf4 := by decide
example : deserializeCode ['1', 'f', 'f'] = .ok ⟨511, 12⟩ := by decide
example : deserializeCode ['+', '1'] = .ok ⟨1, 8⟩ := by decide
example : deserializeCode ['-', '1'] = .error .parseError := by decide
example : deserializeCode [] = .error .parseError := by decide
example : deserializeCode ['F', 'f'] = .ok ⟨255, 8⟩ := by decide
example : deserializeCode ['0','1','2','3','4','5','6','7','8'] = .error .tooLong := by decide

/-! ### Lemmas about the bit-extraction loop -/

theorem decodeLoop_cons (T v l high low : Nat) (rest : List Nat) :
    decodeLoop T v l (high :: low :: rest) =
      if T = 0 then .trap
      else if round_div high T = 3 ∧ round_div low T = 1 then
        decodeLoop T ((v * 2 + 1) % U32_MOD) ((l + 1) % U8_MOD) rest
      else if round_div high T = 1 ∧ round_div low T = 3 then
        decodeLoop T ((v * 2) % U32_MOD) ((l + 1) % U8_MOD) rest
      else if BREAK_PULSE_LENGTH < high ∨ BREAK_PULSE_LENGTH < low then .ok ⟨v, l⟩
      else .err (.InvalidPulseLength high low) := rfl

theorem decodeLoop_nil (T v l : Nat) : decodeLoop T v l [] = .ok ⟨v, l⟩ := rfl

theorem decodeLoop_single (T v l high : Nat) : decodeLoop T v l [high] = .ok ⟨v, l⟩ := rfl

theorem specDecodeLoop_cons (T v l high low : Nat) (rest : List Nat) :
    specDecodeLoop T v l (high :: low :: rest) =
      if spec_round_div high T = 3 ∧ spec_round_div low T = 1 then
        specDecodeLoop T ((v * 2 + 1) % U32_MOD) ((l + 1) % U8_MOD) rest
      else if spec_round_div high T = 1 ∧ spec_round_div low T = 3 then
        specDecodeLoop T ((v * 2) % U32_MOD) ((l + 1) % U8_MOD) rest
      else if BREAK_PULSE_LENGTH < high ∨ BREAK_PULSE_LENGTH < low then .ok ⟨v, l⟩
      else .err (.InvalidPulseLength high low) := rfl

theorem specDecodeLoop_nil (T v l : Nat) : specDecodeLoop T v l [] = .ok ⟨v, l⟩ := rfl

theorem specDecodeLoop_single (T v l high : Nat) :
    specDecodeLoop T v l [high] = .ok ⟨v, l⟩ := rfl

theorem decodeLoop_ne_noStart (T : Nat) :
    ∀ (v l : Nat) (ps : List Nat), decodeLoop T v l ps ≠ .err .NoStart := by
  intro v l ps
  induction v, l, ps using decodeLoop.induct T with
  | case1 v l high low rest h0 => simp [decodeLoop_cons, h0]
  | case2 v l high low rest h0 hp lp hc ih =>
    rw [decodeLoop_cons, if_neg h0, if_pos hc]; exact ih
  | case3 v l high low rest h0 hp lp hc1 hc2 ih =>
    rw [decodeLoop_cons, if_neg h0, if_neg hc1, if_pos hc2]; exact ih
  | case4 v l high low rest h0 hp lp hc1 hc2 hb =>
    rw [decodeLoop_cons, if_neg h0, if_neg hc1, if_neg hc2, if_pos hb]; simp
  | case5 v l high low rest h0 hp lp hc1 hc2 hb =>
    rw [decodeLoop_cons, if_neg h0, if_neg hc1, if_neg hc2, if_neg hb]; simp
  | case6 t v l hne =>
    match t, hne with
    | [], _ => simp [decodeLoop]
    | [a], _ => simp [decodeLoop]
    | a :: b :: rest, hne => exact absurd rfl (hne a b rest)

/-- In the loop, a pair that classifies as neither symbol and has a half
beyond the break threshold ends decoding with exactly the accumulated bits. -/
theorem decodeLoop_break (T v l high low : Nat) (rest : List Nat) (hT : 1 ≤ T)
    (h31 : ¬(round_div high T = 3 ∧ round_div low T = 1))
    (h13 : ¬(round_div high T = 1 ∧ round_div low T = 3))
    (hbrk : BREAK_PULSE_LENGTH < high ∨ BREAK_PULSE_LENGTH < low) :
    decodeLoop T v l (high :: low :: rest) = .ok ⟨v, l⟩ := by
  have hT0 : ¬ T = 0 := by omega
  simp [decodeLoop, hT0, h31, h13, hbrk]

/-- Loop invariant: starting from an accumulator with `v < 2 ^ l` and few
enough remaining pulses that at most 32 bits in total can be produced, a
successful exit carries a length of at most 32 and a value below
`2 ^ length`. -/
theorem decodeLoop_bits (T : Nat) :
    ∀ (v l : Nat) (ps : List Nat), v < 2 ^ l → l + ps.length / 2 ≤ 32 →
      ∀ c, decodeLoop T v l ps = .ok c → c.length ≤ 32 ∧ c.value < 2 ^ c.length := by
  intro v l ps
  induction v, l, ps using decodeLoop.induct T with
  | case1 v l high low rest h0 =>
    intro _ _ c h
    rw [decodeLoop_cons, if_pos h0] at h
    exact absurd h (by simp)
  | case2 v l high low rest h0 hp lp hc ih =>
    intro hv hlen c h
    simp only [List.length_cons] at hlen
    have hl1 : l + 1 ≤ 32 := by omega
    have hmodl : (l + 1) % U8_MOD = l + 1 := Nat.mod_eq_of_lt (by simp only [U8_MOD]; omega)
    have hv' : v * 2 + 1 < 2 ^ (l + 1) := by rw [pow_succ]; omega
    have hmodv : (v * 2 + 1) % U32_MOD = v * 2 + 1 := by
      apply Nat.mod_eq_of_lt
      calc v * 2 + 1 < 2 ^ (l + 1) := hv'
        _ ≤ 2 ^ 32 := Nat.pow_le_pow_right (by omega) hl1
        _ = U32_MOD := by norm_num [U32_MOD]
    rw [decodeLoop_cons, if_neg h0, if_pos hc] at h
    exact ih (by rw [hmodv, hmodl]; exact hv') (by rw [hmodl]; omega) c h
  | case3 v l high low rest h0 hp lp hc1 hc2 ih =>
    intro hv hlen c h
    simp only [List.length_cons] at hlen
    have hl1 : l + 1 ≤ 32 := by omega
    have hmodl : (l + 1) % U8_MOD = l + 1 := Nat.mod_eq_of_lt (by simp only [U8_MOD]; omega)
    have hv' : v * 2 < 2 ^ (l + 1) := by rw [pow_succ]; omega
    have hmodv : (v * 2) % U32_MOD = v * 2 := by
      apply Nat.mod_eq_of_lt
      calc v * 2 < 2 ^ (l + 1) := hv'
        _ ≤ 2 ^ 32 := Nat.pow_le_pow_right (by omega) hl1
        _ = U32_MOD := by norm_num [U32_MOD]
    rw [decodeLoop_cons, if_neg h0, if_neg hc1, if_pos hc2] at h
    exact ih (by rw [hmodv, hmodl]; exact hv') (by rw [hmodl]; omega) c h
  | case4 v l high low rest h0 hp lp hc1 hc2 hb =>
    intro hv hlen c h
    rw [decodeLoop_cons, if_neg h0, if_neg hc1, if_neg hc2, if_pos hb] at h
    cases h
    refine ⟨?_, ?_⟩ <;> dsimp only
    · simp only [List.length_cons] at hlen; omega
    · exact hv
  | case5 v l high low rest h0 hp lp hc1 hc2 hb =>
    intro hv hlen c h
    rw [decodeLoop_cons, if_neg h0, if_neg hc1, if_neg hc2, if_neg hb] at h
    exact absurd h (by simp)
  | case6 t v l hne =>
    intro hv hlen c h
    match t, hne, h with
    | [], _, h =>
      rw [decodeLoop_nil] at h
      cases h
      refine ⟨?_, ?_⟩ <;> dsimp only
      · omega
      · exact hv
    | [a], _, h =>
      rw [decodeLoop_single] at h
      cases h
      refine ⟨?_, ?_⟩ <;> dsimp only
      · omega
      · exact hv
    | a :: b :: rest, hne, _ => exact absurd rfl (hne a b rest)

/-! ### Decoder-level lemmas -/

/-- The only way `decode` reports `NoStart` is that no pulse exceeds the
break threshold. -/
theorem decode_noStart_iff (pulses : List Nat) :
    decode pulses = .err .NoStart ↔ ∀ p ∈ pulses, p ≤ BREAK_PULSE_LENGTH := by
  unfold decode
  split
  next hdw =>
    simp only [true_iff]
    have hall := List.dropWhile_eq_nil_iff.mp hdw
    exact fun p hp => by simpa using hall p hp
  next head rest hdw =>
    constructor
    · intro h
      split at h
      · exact absurd h (by simp)
      · exact absurd h (decodeLoop_ne_noStart _ _ _ _)
    · intro hall
      have : pulses.dropWhile (fun p => decide (p ≤ BREAK_PULSE_LENGTH)) = [] :=
        List.dropWhile_eq_nil_iff.mpr fun x hx => by simpa using hall x hx
      rw [hdw] at this
      cases this

/-- Rounded division against a short duration of at most 8191 classifies a
u16 interval into the buckets 1 and 3 identically with the wrapping u16
arithmetic of the code and the exact arithmetic of the specification. -/
theorem round_div_bucket (T h : Nat) (hT1 : 1 ≤ T) (hT : T ≤ 8191) (hh : h < 65536) :
    (round_div h T = 3 ↔ spec_round_div h T = 3) ∧
    (round_div h T = 1 ↔ spec_round_div h T = 1) := by
  unfold round_div spec_round_div
  simp only [U16_MOD]
  by_cases hlt : h + T / 2 < 65536
  · rw [Nat.mod_eq_of_lt hlt]
    exact ⟨Iff.rfl, Iff.rfl⟩
  · push_neg at hlt
    have hmod : (h + T / 2) % 65536 = h + T / 2 - 65536 := by omega
    have h0 : (h + T / 2 - 65536) / T = 0 := Nat.div_eq_of_lt (by omega)
    have h8 : 8 ≤ (h + T / 2) / T := by
      rw [Nat.le_div_iff_mul_le (by omega)]
      omega
    rw [hmod, h0]
    omega

/-- With a short duration in the range an in-bounds estimation sum can
produce, the wrapping loop of the code and the exact loop of the
specification agree on every u16 pulse stream. -/
theorem decodeLoop_eq_spec (T : Nat) (hT1 : 1 ≤ T) (hT : T ≤ 8191) :
    ∀ (v l : Nat) (ps : List Nat), (∀ p ∈ ps, p < 65536) →
      decodeLoop T v l ps = specDecodeLoop T v l ps := by
  intro v l ps
  induction v, l, ps using decodeLoop.induct T with
  | case1 v l high low rest h0 => exact absurd h0 (by omega)
  | case2 v l high low rest h0 hp lp hc ih =>
    intro hmem
    have bh := round_div_bucket T high hT1 hT (hmem high (by simp))
    have bl := round_div_bucket T low hT1 hT (hmem low (by simp))
    rw [decodeLoop_cons, if_neg h0, if_pos hc, specDecodeLoop_cons,
      if_pos ⟨bh.1.mp hc.1, bl.2.mp hc.2⟩]
    exact ih fun p hp => hmem p (by simp [hp])
  | case3 v l high low rest h0 hp lp hc1 hc2 ih =>
    intro hmem
    have bh := round_div_bucket T high hT1 hT (hmem high (by simp))
    have bl := round_div_bucket T low hT1 hT (hmem low (by simp))
    have hs1 : ¬(spec_round_div high T = 3 ∧ spec_round_div low T = 1) := by
      intro hx
      exact hc1 ⟨bh.1.mpr hx.1, bl.2.mpr hx.2⟩
    rw [decodeLoop_cons, if_neg h0, if_neg hc1, if_pos hc2, specDecodeLoop_cons,
      if_neg hs1, if_pos ⟨bh.2.mp hc2.1, bl.1.mp hc2.2⟩]
    exact ih fun p hp => hmem p (by simp [hp])
  | case4 v l high low rest h0 hp lp hc1 hc2 hb =>
    intro hmem
    have bh := round_div_bucket T high hT1 hT (hmem high (by simp))
    have bl := round_div_bucket T low hT1 hT (hmem low (by simp))
    have hs1 : ¬(spec_round_div high T = 3 ∧ spec_round_div low T = 1) := by
      intro hx
      exact hc1 ⟨bh.1.mpr hx.1, bl.2.mpr hx.2⟩
    have hs2 : ¬(spec_round_div high T = 1 ∧ spec_round_div low T = 3) := by
      intro hx
      exact hc2 ⟨bh.2.mpr hx.1, bl.1.mpr hx.2⟩
    rw [decodeLoop_cons, if_neg h0, if_neg hc1, if_neg hc2, if_pos hb,
      specDecodeLoop_cons, if_neg hs1, if_neg hs2, if_pos hb]
  | case5 v l high low rest h0 hp lp hc1 hc2 hb =>
    intro hmem
    have bh := round_div_bucket T high hT1 hT (hmem high (by simp))
    have bl := round_div_bucket T low hT1 hT (hmem low (by simp))
    have hs1 : ¬(spec_round_div high T = 3 ∧ spec_round_div low T = 1) := by
      intro hx
      exact hc1 ⟨bh.1.mpr hx.1, bl.2.mpr hx.2⟩
    have hs2 : ¬(spec_round_div high T = 1 ∧ spec_round_div low T = 3) := by
      intro hx
      exact hc2 ⟨bh.2.mpr hx.1, bl.1.mpr hx.2⟩
    rw [decodeLoop_cons, if_neg h0, if_neg hc1, if_neg hc2, if_neg hb,
      specDecodeLoop_cons, if_neg hs1, if_neg hs2, if_neg hb]
  | case6 t v l hne =>
    intro hmem
    match t, hne with
    | [], _ => rw [decodeLoop_nil, specDecodeLoop_nil]
    | [a], _ => rw [decodeLoop_single, specDecodeLoop_single]
    | a :: b :: rest, hne => exact absurd rfl (hne a b rest)

/-- When the u16 sum of the four estimation pulses does not overflow and is
at least 8, the decoder follows the specified algorithm exactly. -/
theorem decode_eq_specDecode (pulses : List Nat) (hmem : ∀ p ∈ pulses, p < 65536)
    (hlo : 8 ≤ ((postBreak pulses).take 4).sum)
    (hhi : ((postBreak pulses).take 4).sum ≤ 65535) :
    decode pulses = specDecode pulses := by
  cases hdw : pulses.dropWhile (fun p => decide (p ≤ BREAK_PULSE_LENGTH)) with
  | nil =>
    unfold decode specDecode
    rw [hdw]
  | cons head rest =>
    have hpost : postBreak pulses = rest := by
      unfold postBreak
      rw [hdw]
      rfl
    rw [hpost] at hlo hhi
    unfold decode specDecode
    rw [hdw]
    dsimp only
    split
    · rfl
    · have hsum : shortDuration rest = specShortDuration rest := by
        unfold shortDuration specShortDuration
        simp only [U16_MOD]
        omega
      have hT1 : 1 ≤ specShortDuration rest := by
        unfold specShortDuration
        omega
      have hT : specShortDuration rest ≤ 8191 := by
        unfold specShortDuration
        omega
      rw [hsum]
      apply decodeLoop_eq_spec _ hT1 hT
      intro p hp
      apply hmem
      have : p ∈ head :: rest := by simp [hp]
      rw [← hdw] at this
      exact (List.dropWhile_sublist _).mem this

/-- Helper: dropping while a predicate holds ignores a prefix on which the
predicate holds everywhere. -/
theorem dropWhile_append_of_all {α : Type} (p : α → Bool) (pre l : List α)
    (h : ∀ x ∈ pre, p x = true) :
    (pre ++ l).dropWhile p = l.dropWhile p := by
  induction pre with
  | nil => rfl
  | cons a t ih =>
    rw [List.cons_append, List.dropWhile_cons, if_pos (h a (by simp))]
    exact ih fun x hx => h x (by simp [hx])

/-! ### Claim theorems for the decoder -/

/-- C1, counterexample: the claim asserts that T is the exact quotient of
the sum of the first four post-break intervals by 8.  On this input the
exact sum is 73536, so the specified algorithm uses T = 9192, rejects the
first pair (3000, 1000) as an invalid pulse length, and fails; the code
sums in a u16, wraps to 8000, uses T = 1000, reads the first pair as the
bit 1, and succeeds with one bit. -/
theorem C1_counterexample :
    decode [4000, 3000, 1000, 65000, 4536] = .ok ⟨1, 1⟩ ∧
    specDecode [4000, 3000, 1000, 65000, 4536] = .err (.InvalidPulseLength 3000 1000) ∧
    decode [4000, 3000, 1000, 65000, 4536] ≠ specDecode [4000, 3000, 1000, 65000, 4536] := by
  decide

/-- C1, amended: on u16 inputs whose four estimation intervals sum to at
least 8 (so the estimated unit is nonzero) and at most 65535 (so the u16
sum does not overflow), decode implements the specified PWM algorithm
exactly; and the concrete example decodes to the code 13 of length 4. -/
theorem C1_decode_implements_spec :
    (∀ pulses : List Nat, (∀ p ∈ pulses, p < 65536) →
        8 ≤ ((postBreak pulses).take 4).sum → ((postBreak pulses).take 4).sum ≤ 65535 →
        decode pulses = specDecode pulses) ∧
    decode [300, 10000, 1000, 333, 1000, 333, 333, 1000, 1000, 333] = .ok ⟨13, 4⟩ :=
  ⟨decode_eq_specDecode, by decide⟩

/-- Witness for C1: the hypotheses hold on the concrete example, where the
code and the specified algorithm agree. -/
theorem C1_decode_implements_spec_witness :
    decode [300, 10000, 1000, 333, 1000, 333, 333, 1000, 1000, 333] =
      specDecode [300, 10000, 1000, 333, 1000, 333, 333, 1000, 1000, 333] :=
  C1_decode_implements_spec.1 _ (by decide) (by decide) (by decide)

/-- C2: the code is not total.  When the four estimation intervals sum to
less than 8 the estimated short duration is 0 and the first `round_div`
divides by zero, a Rust runtime panic, where the claim promises a typed
`InvalidPulseLength` error. -/
theorem C2_division_by_zero_trap :
    shortDuration [1, 1, 1, 1] = 0 ∧ decode [4000, 1, 1, 1, 1] = .trap := by decide

/-- C3: the unit estimator sums the four post-break u16 intervals in a u16
accumulator, not a wider one.  Here the exact sum is 73528 (so the claimed
short duration is 9191) but the u16 sum wraps to 7992 and the code uses
999, which changes the decode result from an `InvalidPulseLength` error to
a successful one-bit code. -/
theorem C3_sum_overflows_u16 :
    shortDuration [2997, 999, 65000, 4532] = 999 ∧
    specShortDuration [2997, 999, 65000, 4532] = 9191 ∧
    decode [4000, 2997, 999, 65000, 4532] = .ok ⟨1, 1⟩ ∧
    specDecode [4000, 2997, 999, 65000, 4532] = .err (.InvalidPulseLength 2997 999) := by
  decide

/-- C4, counterexample: the break check runs only after symbol
classification.  Here the post-break stream is [9000, 3000, 9000, 3000],
the estimated unit is 3000, and the first pair (9000, 3000) has a high
interval beyond the break threshold, so the claim demands a clean end with
the zero bits accumulated before the pair; but the pair also rounds to
(3, 1), so the code consumes it (and the next) as bits and returns two
bits. -/
theorem C4_counterexample :
    postBreak [4000, 9000, 3000, 9000, 3000] = [9000, 3000, 9000, 3000] ∧
    BREAK_PULSE_LENGTH < 9000 ∧
    decode [4000, 9000, 3000, 9000, 3000] = .ok ⟨3, 2⟩ ∧
    decode [4000, 9000, 3000, 9000, 3000] ≠ .ok ⟨0, 0⟩ := by
  decide

/-- C4, amended: whenever the bit-extraction loop meets a pair that rounds
to neither (3, 1) nor (1, 3) and either raw interval exceeds the break
threshold, decoding ends cleanly with exactly the bits accumulated before
that pair (the nonzero unit hypothesis excludes the division-by-zero
trap). -/
theorem C4_break_pair_ends_cleanly (T v l high low : Nat) (rest : List Nat) (hT : 1 ≤ T)
    (h31 : ¬(round_div high T = 3 ∧ round_div low T = 1))
    (h13 : ¬(round_div high T = 1 ∧ round_div low T = 3))
    (hbrk : BREAK_PULSE_LENGTH < high ∨ BREAK_PULSE_LENGTH < low) :
    decodeLoop T v l (high :: low :: rest) = .ok ⟨v, l⟩ :=
  decodeLoop_break T v l high low rest hT h31 h13 hbrk

/-- Witness for C4: a pair (4000, 100) with unit 333 rounds to (12, 0) and
its high half exceeds the break threshold, so the loop stops with the
three bits accumulated so far. -/
theorem C4_break_pair_ends_cleanly_witness :
    decodeLoop 333 5 3 [4000, 100] = .ok ⟨5, 3⟩ :=
  C4_break_pair_ends_cleanly 333 5 3 4000 100 [] (by decide) (by decide) (by decide)
    (by decide)

/-- C5, counterexample: a break followed by 33 well-formed symbol pairs
decodes successfully with length 33, violating the claimed bound of 32
(the u32 value silently drops the oldest bit and holds all ones). -/
theorem C5_counterexample :
    decode (4000 :: (List.replicate 33 [999, 333]).flatten) = .ok ⟨4294967295, 33⟩ ∧
    ¬(33 ≤ 32) := by decide

/-- C5, amended: on inputs of at most 65 intervals (so at most 32 symbol
pairs follow the break) a successful decode satisfies the claimed
invariants: the length is at most 32 and only the lower length bits of the
value are set. -/
theorem C5_invariants_bounded (pulses : List Nat) (c : Code) (hlen : pulses.length ≤ 65)
    (h : decode pulses = .ok c) : c.length ≤ 32 ∧ c.value < 2 ^ c.length := by
  unfold decode at h
  split at h
  · exact absurd h (by simp)
  next head rest hdw =>
    split at h
    · exact absurd h (by simp)
    · have hsub : (head :: rest).length ≤ pulses.length := by
        rw [← hdw]
        exact (List.dropWhile_sublist _).length_le
      simp only [List.length_cons] at hsub
      exact decodeLoop_bits _ 0 0 rest (by norm_num) (by omega) c h

/-- Witness for C5: the six-interval example decodes to two bits with the
invariants holding. -/
theorem C5_invariants_bounded_witness :
    (Code.mk 3 2).length ≤ 32 ∧ (Code.mk 3 2).value < 2 ^ (Code.mk 3 2).length :=
  C5_invariants_bounded [300, 10000, 1000, 333, 1000, 333] ⟨3, 2⟩ (by decide) (by decide)

/-- C9: decode returns NoStart exactly when no interval exceeds the break
threshold; in particular the empty input gives NoStart. -/
theorem C9_noStart_characterization :
    decode [] = .err .NoStart ∧
    ∀ pulses : List Nat,
      decode pulses = .err .NoStart ↔ ∀ p ∈ pulses, p ≤ BREAK_PULSE_LENGTH :=
  ⟨by decide, decode_noStart_iff⟩

/-- C10: the four intervals used to estimate the unit are not skipped: the
bit-extraction loop restarts at the first interval after the break, so the
unit is computed from exactly the four intervals p0..p3 (first conjunct)
and those same four intervals are consumed as the first two symbol pairs,
contributing the first two decoded bits MSB-first (second conjunct: after
the two pairs the loop continues on the remainder with value b1*2 + b2 and
length 2). -/
theorem C10_estimation_pulses_also_decoded (pre : List Nat) (brk p0 p1 p2 p3 : Nat)
    (rest : List Nat) (b1 b2 : Nat)
    (hpre : ∀ p ∈ pre, p ≤ BREAK_PULSE_LENGTH) (hbrk : BREAK_PULSE_LENGTH < brk)
    (hT : 1 ≤ shortDuration (p0 :: p1 :: p2 :: p3 :: rest))
    (h1 : (round_div p0 (shortDuration (p0 :: p1 :: p2 :: p3 :: rest)) = 3 ∧
           round_div p1 (shortDuration (p0 :: p1 :: p2 :: p3 :: rest)) = 1 ∧ b1 = 1) ∨
          (round_div p0 (shortDuration (p0 :: p1 :: p2 :: p3 :: rest)) = 1 ∧
           round_div p1 (shortDuration (p0 :: p1 :: p2 :: p3 :: rest)) = 3 ∧ b1 = 0))
    (h2 : (round_div p2 (shortDuration (p0 :: p1 :: p2 :: p3 :: rest)) = 3 ∧
           round_div p3 (shortDuration (p0 :: p1 :: p2 :: p3 :: rest)) = 1 ∧ b2 = 1) ∨
          (round_div p2 (shortDuration (p0 :: p1 :: p2 :: p3 :: rest)) = 1 ∧
           round_div p3 (shortDuration (p0 :: p1 :: p2 :: p3 :: rest)) = 3 ∧ b2 = 0)) :
    shortDuration (p0 :: p1 :: p2 :: p3 :: rest) = ((p0 + p1 + p2 + p3) % U16_MOD) / 8 ∧
    decode (pre ++ brk :: p0 :: p1 :: p2 :: p3 :: rest) =
      decodeLoop (shortDuration (p0 :: p1 :: p2 :: p3 :: rest)) (b1 * 2 + b2) 2 rest := by
  set T := shortDuration (p0 :: p1 :: p2 :: p3 :: rest) with hTdef
  have hsum : T = ((p0 + p1 + p2 + p3) % U16_MOD) / 8 := by
    rw [hTdef]
    unfold shortDuration
    have h4 : (p0 :: p1 :: p2 :: p3 :: rest).take 4 = [p0, p1, p2, p3] := rfl
    rw [h4]
    simp only [List.sum_cons, List.sum_nil]
    norm_num
    congr 2
    omega
  refine ⟨hsum, ?_⟩
  have hT0 : ¬ T = 0 := by omega
  have hdw : (pre ++ brk :: p0 :: p1 :: p2 :: p3 :: rest).dropWhile
      (fun p => decide (p ≤ BREAK_PULSE_LENGTH)) = brk :: p0 :: p1 :: p2 :: p3 :: rest := by
    rw [dropWhile_append_of_all _ pre _ fun x hx => by simpa using hpre x hx,
      List.dropWhile_cons, if_neg (by simpa using hbrk)]
  unfold decode
  rw [hdw]
  dsimp only
  rw [if_neg (by simp only [List.length_cons]; omega)]
  rw [← hTdef]
  have hb1 : b1 ≤ 1 := by rcases h1 with ⟨_, _, h⟩ | ⟨_, _, h⟩ <;> omega
  have hb2 : b2 ≤ 1 := by rcases h2 with ⟨_, _, h⟩ | ⟨_, _, h⟩ <;> omega
  have step1 : decodeLoop T 0 0 (p0 :: p1 :: p2 :: p3 :: rest) =
      decodeLoop T b1 1 (p2 :: p3 :: rest) := by
    rcases h1 with ⟨ha, hb, hbit⟩ | ⟨ha, hb, hbit⟩
    · rw [decodeLoop_cons, if_neg hT0, if_pos ⟨ha, hb⟩, hbit]
      norm_num [U32_MOD, U8_MOD]
    · rw [decodeLoop_cons, if_neg hT0, if_neg (by rw [ha]; simp), if_pos ⟨ha, hb⟩, hbit]
      norm_num [U32_MOD, U8_MOD]
  have step2 : decodeLoop T b1 1 (p2 :: p3 :: rest) =
      decodeLoop T (b1 * 2 + b2) 2 rest := by
    rcases h2 with ⟨ha, hb, hbit⟩ | ⟨ha, hb, hbit⟩
    · rw [decodeLoop_cons, if_neg hT0, if_pos ⟨ha, hb⟩, hbit]
      have : (b1 * 2 + 1) % U32_MOD = b1 * 2 + 1 := Nat.mod_eq_of_lt (by
        simp only [U32_MOD]; omega)
      rw [this]
      norm_num [U8_MOD]
    · rw [decodeLoop_cons, if_neg hT0, if_neg (by rw [ha]; simp), if_pos ⟨ha, hb⟩, hbit]
      have : (b1 * 2) % U32_MOD = b1 * 2 := Nat.mod_eq_of_lt (by
        simp only [U32_MOD]; omega)
      rw [this]
      norm_num [U8_MOD]
  rw [step1, step2]

/-- Witness for C10: on the concrete example the unit 333 is computed from
the four intervals 1000, 333, 1000, 333, which are then consumed as two
(3, 1) pairs giving the two leading 1 bits before the loop continues. -/
theorem C10_estimation_pulses_also_decoded_witness :
    decode ([300] ++ 10000 :: 1000 :: 333 :: 1000 :: 333 :: [333, 1000, 1000, 333]) =
      decodeLoop (shortDuration (1000 :: 333 :: 1000 :: 333 :: [333, 1000, 1000, 333]))
        3 2 [333, 1000, 1000, 333] := by
  have := (C10_estimation_pulses_also_decoded [300] 10000 1000 333 1000 333
    [333, 1000, 1000, 333] 1 1 (by decide) (by decide) (by decide)
    (by decide) (by decide)).2
  simpa using this

/-! ### Lemmas about hexadecimal parsing and formatting -/

theorem hexDigitVal_hexChar : ∀ d : Nat, d < 16 → hexDigitVal (hexChar d) = some d := by
  decide

theorem hexChar_ne_plus : ∀ d : Nat, d < 16 → hexChar d ≠ '+' := by decide

theorem hexChar_eq_zero_iff : ∀ d : Nat, d < 16 → (hexChar d = '0' ↔ d = 0) := by decide

theorem isLowerHexDigit_iff (c : Char) :
    isLowerHexDigit c = true ↔ ∃ d, d < 16 ∧ c = hexChar d := by
  unfold isLowerHexDigit
  rw [List.any_eq_true]
  constructor
  · rintro ⟨d, hd, hc⟩
    exact ⟨d, List.mem_range.mp hd, by simpa using hc⟩
  · rintro ⟨d, hd, hc⟩
    exact ⟨d, List.mem_range.mpr hd, by simpa using hc⟩

theorem isLowerHexDigit_hexChar (d : Nat) (hd : d < 16) :
    isLowerHexDigit (hexChar d) = true :=
  (isLowerHexDigit_iff _).mpr ⟨d, hd, rfl⟩

theorem hexDigitVal_lt (c : Char) (d : Nat) (h : hexDigitVal c = some d) : d < 16 := by
  simp only [hexDigitVal] at h
  split_ifs at h <;> simp only [Option.some.injEq] at h <;> omega

theorem parseHexDigits_cons (c : Char) (t : List Char) (acc : Nat) :
    parseHexDigits (c :: t) acc =
      match hexDigitVal c with
      | some d => parseHexDigits t (acc * 16 + d)
      | none => none := rfl

theorem parseHexDigits_append (xs ys : List Char) :
    ∀ acc, parseHexDigits (xs ++ ys) acc =
      match parseHexDigits xs acc with
      | some a => parseHexDigits ys a
      | none => none := by
  induction xs with
  | nil => intro acc; rfl
  | cons c t ih =>
    intro acc
    rw [List.cons_append, parseHexDigits_cons, parseHexDigits_cons]
    cases h : hexDigitVal c with
    | none => rfl
    | some d => exact ih (acc * 16 + d)

theorem parseHexDigits_replicate_zero :
    ∀ k, parseHexDigits (List.replicate k '0') 0 = some 0 := by
  intro k
  induction k with
  | zero => rfl
  | succ n ih =>
    rw [List.replicate_succ, parseHexDigits_cons,
      show hexDigitVal '0' = some 0 from by decide]
    simpa using ih

theorem parseHexDigits_map_hexChar (ds : List Nat) :
    ∀ acc, (∀ d ∈ ds, d < 16) →
      parseHexDigits (ds.map hexChar) acc =
        some (ds.foldl (fun a d => a * 16 + d) acc) := by
  induction ds with
  | nil => intro acc _; rfl
  | cons d t ih =>
    intro acc hall
    rw [List.map_cons, parseHexDigits_cons, hexDigitVal_hexChar d (hall d (by simp))]
    exact ih (acc * 16 + d) fun x hx => hall x (by simp [hx])

theorem foldl_base16_eq_ofDigits (ds : List Nat) :
    ∀ acc, ds.foldl (fun a d => a * 16 + d) acc =
      acc * 16 ^ ds.length + Nat.ofDigits 16 ds.reverse := by
  induction ds with
  | nil => intro acc; simp [Nat.ofDigits]
  | cons d t ih =>
    intro acc
    rw [List.foldl_cons, ih (acc * 16 + d), List.reverse_cons, Nat.ofDigits_append]
    simp only [List.length_cons, List.length_reverse, Nat.ofDigits_singleton]
    ring

theorem parseHexDigits_bound (s : List Char) :
    ∀ acc v, parseHexDigits s acc = some v → v < (acc + 1) * 16 ^ s.length := by
  induction s with
  | nil =>
    intro acc v h
    cases h
    simp
  | cons c t ih =>
    intro acc v h
    rw [parseHexDigits_cons] at h
    cases hc : hexDigitVal c with
    | none => rw [hc] at h; cases h
    | some d =>
      rw [hc] at h
      have hd := hexDigitVal_lt c d hc
      have := ih (acc * 16 + d) v h
      have hstep : (acc * 16 + d + 1) * 16 ^ t.length ≤ (acc + 1) * 16 ^ (c :: t).length := by
        rw [List.length_cons, pow_succ]
        nlinarith [pow_pos (show 0 < 16 by norm_num) t.length]
      omega

theorem parseHexDigits_isSome (s : List Char) :
    ∀ acc, (∀ c ∈ s, (hexDigitVal c).isSome) → ∃ v, parseHexDigits s acc = some v := by
  induction s with
  | nil => intro acc _; exact ⟨acc, rfl⟩
  | cons c t ih =>
    intro acc hall
    rw [parseHexDigits_cons]
    cases hc : hexDigitVal c with
    | none =>
      have := hall c (by simp)
      rw [hc] at this
      cases this
    | some d => exact ih (acc * 16 + d) fun x hx => hall x (by simp [hx])

theorem parseHexDigits_eq_none (s : List Char) :
    ∀ acc, parseHexDigits s acc = none ↔ ∃ c ∈ s, hexDigitVal c = none := by
  induction s with
  | nil => intro acc; simp [parseHexDigits]
  | cons c t ih =>
    intro acc
    rw [parseHexDigits_cons]
    cases hc : hexDigitVal c with
    | none => simp [hc]
    | some d =>
      simp only []
      rw [ih (acc * 16 + d)]
      constructor
      · rintro ⟨x, hx, hnone⟩
        exact ⟨x, by simp [hx], hnone⟩
      · rintro ⟨x, hx, hnone⟩
        rcases List.mem_cons.mp hx with rfl | hx
        · rw [hc] at hnone; cases hnone
        · exact ⟨x, hx, hnone⟩

theorem hexDigitsAux_succ (fuel n : Nat) (acc : List Char) :
    hexDigitsAux (fuel + 1) n acc =
      if n / 16 = 0 then hexChar (n % 16) :: acc
      else hexDigitsAux fuel (n / 16) (hexChar (n % 16) :: acc) := rfl

/-- With enough fuel the formatting loop produces exactly the big-endian
base-16 digits of a positive number, in front of the accumulator. -/
theorem hexDigitsAux_spec :
    ∀ (fuel : Nat), ∀ (n : Nat) (acc : List Char), 1 ≤ n → n ≤ 16 ^ fuel →
      hexDigitsAux (fuel + 1) n acc = ((Nat.digits 16 n).map hexChar).reverse ++ acc := by
  intro fuel
  induction fuel with
  | zero =>
    intro n acc h1 h16
    have hn : n = 1 := by simpa using by omega
    subst hn
    rw [hexDigitsAux_succ, if_pos (by norm_num),
      Nat.digits_def' (show (1:Nat) < 16 by norm_num) (show 0 < 1 by norm_num)]
    norm_num
  | succ f ih =>
    intro n acc h1 h16
    by_cases hlt : n < 16
    · rw [hexDigitsAux_succ, if_pos (Nat.div_eq_of_lt hlt),
        Nat.digits_def' (show (1:Nat) < 16 by norm_num) (show 0 < n by omega),
        Nat.div_eq_of_lt hlt]
      simp [Nat.mod_eq_of_lt hlt]
    · push_neg at hlt
      have hdiv0 : ¬ n / 16 = 0 := by omega
      rw [hexDigitsAux_succ, if_neg hdiv0]
      have hrec : n / 16 ≤ 16 ^ f := by
        have h2 : 16 ^ (f + 1) = 16 ^ f * 16 := pow_succ 16 f
        omega
      rw [ih (n / 16) (hexChar (n % 16) :: acc) (by omega) hrec,
        Nat.digits_def' (show (1:Nat) < 16 by norm_num) (show 0 < n by omega)]
      simp

theorem hexRepr_eq (n : Nat) (h1 : 1 ≤ n) :
    hexRepr n = ((Nat.digits 16 n).map hexChar).reverse := by
  have hn : n ≤ 16 ^ n := le_of_lt (Nat.lt_pow_self (by norm_num) n)
  unfold hexRepr
  rw [hexDigitsAux_spec n n [] h1 hn, List.append_nil]

theorem hexRepr_zero : hexRepr 0 = ['0'] := rfl

theorem hexRepr_length_le (n w : Nat) (hw : 1 ≤ w) (h : n < 16 ^ w) :
    (hexRepr n).length ≤ w := by
  rcases Nat.eq_zero_or_pos n with rfl | hn
  · rw [hexRepr_zero]
    simpa using hw
  · rw [hexRepr_eq n hn]
    simp only [List.length_reverse, List.length_map]
    rw [Nat.digits_len 16 n (by norm_num) (by omega)]
    have := Nat.log_lt_of_lt_pow (show n ≠ 0 by omega) h
    omega

theorem hexRepr_all_hex (n : Nat) : ∀ c ∈ hexRepr n, isLowerHexDigit c = true := by
  rcases Nat.eq_zero_or_pos n with rfl | hn
  · intro c hc
    rw [hexRepr_zero] at hc
    simp only [List.mem_singleton] at hc
    subst hc
    decide
  · rw [hexRepr_eq n hn]
    intro c hc
    simp only [List.mem_reverse, List.mem_map] at hc
    obtain ⟨d, hd, rfl⟩ := hc
    exact isLowerHexDigit_hexChar d (Nat.digits_lt_base (by norm_num) hd)

theorem parseHexDigits_hexRepr (n : Nat) : parseHexDigits (hexRepr n) 0 = some n := by
  rcases Nat.eq_zero_or_pos n with rfl | hn
  · rfl
  · rw [hexRepr_eq n hn, ← List.map_reverse,
      parseHexDigits_map_hexChar _ 0
        (fun d hd => Nat.digits_lt_base (by norm_num) (List.mem_reverse.mp hd)),
      foldl_base16_eq_ofDigits]
    simp [Nat.ofDigits_digits]

theorem parseHexDigits_toHexMinWidth (n w : Nat) :
    parseHexDigits (toHexMinWidth n w) 0 = some n := by
  unfold toHexMinWidth
  rw [parseHexDigits_append, parseHexDigits_replicate_zero]
  exact parseHexDigits_hexRepr n

theorem toHexMinWidth_length (n w : Nat) (hw : 1 ≤ w) (h : n < 16 ^ w) :
    (toHexMinWidth n w).length = w := by
  have := hexRepr_length_le n w hw h
  unfold toHexMinWidth
  simp only [List.length_append, List.length_replicate]
  omega

theorem toHexMinWidth_all_hex (n w : Nat) :
    ∀ c ∈ toHexMinWidth n w, isLowerHexDigit c = true := by
  intro c hc
  unfold toHexMinWidth at hc
  simp only [List.mem_append, List.mem_replicate] at hc
  rcases hc with ⟨_, rfl⟩ | hc
  · decide
  · exact hexRepr_all_hex n c hc

theorem lowerHex_ne_plus (c : Char) (h : isLowerHexDigit c = true) : c ≠ '+' := by
  obtain ⟨d, hd, rfl⟩ := (isLowerHexDigit_iff c).mp h
  exact hexChar_ne_plus d hd

theorem fromStrRadix16_cons (c : Char) (rest : List Char) :
    fromStrRadix16 (c :: rest) =
      if c = '+' then (if rest.isEmpty then none else parseU32Hex rest)
      else parseU32Hex (c :: rest) := rfl

theorem lowerHex_map_val (s : List Char) (hall : ∀ c ∈ s, isLowerHexDigit c = true) :
    (s.map fun x => (hexDigitVal x).getD 0).map hexChar = s := by
  induction s with
  | nil => rfl
  | cons c t ih =>
    obtain ⟨d, hd, rfl⟩ := (isLowerHexDigit_iff c).mp (hall c (by simp))
    rw [List.map_cons, List.map_cons, hexDigitVal_hexChar d hd]
    rw [ih fun x hx => hall x (by simp [hx])]
    rfl

theorem lowerHex_val_lt (s : List Char) (hall : ∀ c ∈ s, isLowerHexDigit c = true) :
    ∀ d ∈ s.map fun x => (hexDigitVal x).getD 0, d < 16 := by
  intro d hd
  simp only [List.mem_map] at hd
  obtain ⟨c, hc, rfl⟩ := hd
  obtain ⟨e, he, rfl⟩ := (isLowerHexDigit_iff c).mp (hall c hc)
  rw [hexDigitVal_hexChar e he]
  exact he

/-- A lowercase hexadecimal string with a nonzero leading digit is exactly
the shortest rendering of its value. -/
theorem hexRepr_of_parse (c : Char) (t : List Char)
    (hall : ∀ x ∈ c :: t, isLowerHexDigit x = true) (hc0 : c ≠ '0') (v : Nat)
    (hv : parseHexDigits (c :: t) 0 = some v) : hexRepr v = c :: t := by
  set ds := (c :: t).map fun x => (hexDigitVal x).getD 0 with hds
  have hmap : ds.map hexChar = c :: t := lowerHex_map_val _ hall
  have hlt : ∀ d ∈ ds, d < 16 := lowerHex_val_lt _ hall
  have hparse : parseHexDigits (ds.map hexChar) 0 =
      some (ds.foldl (fun a d => a * 16 + d) 0) :=
    parseHexDigits_map_hexChar ds 0 hlt
  rw [hmap, hv] at hparse
  have hvval : v = Nat.ofDigits 16 ds.reverse := by
    have heq := foldl_base16_eq_ofDigits ds 0
    simp only [Nat.zero_mul, Nat.zero_add] at heq
    simp only [Option.some.injEq] at hparse
    rw [hparse, heq]
  have hcons : ds = ((hexDigitVal c).getD 0) :: (t.map fun x => (hexDigitVal x).getD 0) :=
    rfl
  have hd0 : (hexDigitVal c).getD 0 ≠ 0 := by
    obtain ⟨e, he, hce⟩ := (isLowerHexDigit_iff c).mp (hall c (by simp))
    subst hce
    rw [hexDigitVal_hexChar e he]
    intro hx
    simp only [Option.getD_some] at hx
    subst hx
    exact hc0 (by decide)
  have hdigits : Nat.digits 16 v = ds.reverse := by
    rw [hvval]
    apply Nat.digits_ofDigits 16 (by norm_num)
    · intro l hl
      exact hlt l (List.mem_reverse.mp hl)
    · intro hne
      rw [List.getLast_reverse]
      exact hd0
  have hvpos : 1 ≤ v := by
    rcases Nat.eq_zero_or_pos v with rfl | h
    · rw [Nat.digits_zero] at hdigits
      have : ds = [] := by simpa using hdigits.symm
      rw [hcons] at this
      cases this
    · exact h
  rw [hexRepr_eq v hvpos, hdigits, ← List.map_reverse, List.reverse_reverse, hmap]

theorem acceptHex_cons (c : Char) (rest : List Char) :
    acceptHex (c :: rest) =
      if c = '+' then !rest.isEmpty && rest.all (fun ch => (hexDigitVal ch).isSome)
      else (c :: rest).all fun ch => (hexDigitVal ch).isSome := rfl

theorem toHexMinWidth_succ_zero (v w : Nat) (h : (hexRepr v).length ≤ w) :
    toHexMinWidth v (w + 1) = '0' :: toHexMinWidth v w := by
  show List.replicate (w + 1 - (hexRepr v).length) '0' ++ hexRepr v =
    '0' :: (List.replicate (w - (hexRepr v).length) '0' ++ hexRepr v)
  have hstep : w + 1 - (hexRepr v).length = (w - (hexRepr v).length) + 1 := by omega
  rw [hstep, List.replicate_succ, List.cons_append]

/-- Re-rendering a lowercase hexadecimal string from its parsed value at
its own width reproduces the string. -/
theorem toHexMinWidth_parse_roundtrip :
    ∀ (s : List Char), (∀ c ∈ s, isLowerHexDigit c = true) → 1 ≤ s.length →
      ∀ v, parseHexDigits s 0 = some v → toHexMinWidth v s.length = s := by
  intro s
  induction s with
  | nil =>
    intro _ h1
    simp at h1
  | cons c t ih =>
    intro hall h1 v hv
    by_cases hc0 : c = '0'
    · subst hc0
      rw [parseHexDigits_cons, show hexDigitVal '0' = some 0 from by decide] at hv
      simp only [] at hv
      norm_num at hv
      cases t with
      | nil =>
        cases hv
        rfl
      | cons d t' =>
        have hlen : 1 ≤ (d :: t').length := by simp
        have hres := ih (fun x hx => hall x (by simp [hx])) hlen v hv
        have hbound : v < 16 ^ (d :: t').length := by
          have := parseHexDigits_bound (d :: t') 0 v hv
          simpa using this
        have hRlen : (hexRepr v).length ≤ (d :: t').length :=
          hexRepr_length_le v _ hlen hbound
        rw [List.length_cons, toHexMinWidth_succ_zero v _ hRlen, hres]
    · have hrepr := hexRepr_of_parse c t hall hc0 v hv
      unfold toHexMinWidth
      rw [hrepr]
      simp

theorem serializeCode_ok (c : Code) (h4 : c.length % 4 = 0) :
    serializeCode c = .ok (toHexMinWidth c.value (c.length / 4)) := by
  unfold serializeCode
  rw [if_neg (by omega)]

/-- Deserializing a string of 1 to 8 lowercase hexadecimal digits succeeds
with the parsed value and four bits of length per character. -/
theorem deserializeCode_lowerHex (s : List Char) (h1 : 1 ≤ s.length) (h8 : s.length ≤ 8)
    (hall : ∀ c ∈ s, isLowerHexDigit c = true) :
    ∃ v, v < 16 ^ s.length ∧ parseHexDigits s 0 = some v ∧
      deserializeCode s = .ok ⟨v, s.length * 4⟩ := by
  obtain ⟨v, hv⟩ := parseHexDigits_isSome s 0 fun c hc => by
    obtain ⟨d, hd, rfl⟩ := (isLowerHexDigit_iff c).mp (hall c hc)
    rw [hexDigitVal_hexChar d hd]
    rfl
  have hbound : v < 16 ^ s.length := by
    have := parseHexDigits_bound s 0 v hv
    simpa using this
  refine ⟨v, hbound, hv, ?_⟩
  unfold deserializeCode
  rw [if_neg (by omega)]
  cases s with
  | nil => simp at h1
  | cons c rest =>
    rw [fromStrRadix16_cons, if_neg (lowerHex_ne_plus c (hall c (by simp)))]
    have hu32 : v < U32_MOD := by
      have hle : (16:Nat) ^ (c :: rest).length ≤ 16 ^ 8 :=
        Nat.pow_le_pow_right (by norm_num) h8
      have : (16:Nat) ^ 8 = U32_MOD := by norm_num [U32_MOD]
      omega
    unfold parseU32Hex
    rw [hv]
    dsimp only
    rw [if_pos hu32]

/-! ### Claim theorems for the serialization facet -/

/-- C6, counterexample: serialization pads to a minimum width only, so a
code whose value needs more digits than length / 4 serializes to a longer
string, which deserializes to a different code. -/
theorem C6_counterexample :
    serializeCode ⟨511, 4⟩ = .ok ['1', 'f', 'f'] ∧
    deserializeCode ['1', 'f', 'f'] = .ok ⟨511, 12⟩ ∧
    (Code.mk 511 12 ≠ Code.mk 511 4) := by decide

/-- C6, amended: the round trip holds in both directions once the Code
invariant is imposed on the first direction: for every code with length in
4..32, a multiple of 4, and value below 2 ^ length, deserialization
inverts serialization; and for every string of 1 to 8 lowercase
hexadecimal digits, serialization inverts deserialization. -/
theorem C6_roundtrip_amended :
    (∀ c : Code, c.length % 4 = 0 → 4 ≤ c.length → c.length ≤ 32 →
      c.value < 2 ^ c.length →
      ∃ s, serializeCode c = .ok s ∧ deserializeCode s = .ok c) ∧
    (∀ s : List Char, (∀ ch ∈ s, isLowerHexDigit ch = true) → 1 ≤ s.length →
      s.length ≤ 8 →
      ∃ c, deserializeCode s = .ok c ∧ serializeCode c = .ok s) := by
  constructor
  · intro c h4 hge hle hval
    refine ⟨toHexMinWidth c.value (c.length / 4), serializeCode_ok c h4, ?_⟩
    have hw1 : 1 ≤ c.length / 4 := by omega
    have hw8 : c.length / 4 ≤ 8 := by omega
    have hval16 : c.value < 16 ^ (c.length / 4) := by
      have h16 : (16:Nat) ^ (c.length / 4) = 2 ^ c.length := by
        rw [show (16:Nat) = 2 ^ 4 from rfl, ← pow_mul]
        congr 1
        omega
      omega
    have hlen := toHexMinWidth_length c.value (c.length / 4) hw1 hval16
    obtain ⟨v, hvb, hvp, hde⟩ := deserializeCode_lowerHex
      (toHexMinWidth c.value (c.length / 4)) (by omega) (by omega)
      (toHexMinWidth_all_hex c.value (c.length / 4))
    have hveq : v = c.value := by
      have h2 := parseHexDigits_toHexMinWidth c.value (c.length / 4)
      rw [hvp] at h2
      simpa using h2
    subst hveq
    rw [hde, hlen]
    have : c.length / 4 * 4 = c.length := by omega
    rw [this]
  · intro s hall h1 h8
    obtain ⟨v, hvb, hvp, hde⟩ := deserializeCode_lowerHex s h1 h8 hall
    refine ⟨⟨v, s.length * 4⟩, hde, ?_⟩
    rw [serializeCode_ok ⟨v, s.length * 4⟩ (by dsimp only; omega)]
    have hdiv : s.length * 4 / 4 = s.length := by omega
    show Except.ok (toHexMinWidth v (s.length * 4 / 4)) = _
    rw [hdiv, toHexMinWidth_parse_roundtrip s hall h1 v hvp]

/-- Witness for C6: both directions at concrete inputs, the code (255, 8)
and the string 07. -/
theorem C6_roundtrip_amended_witness :
    (∃ s, serializeCode ⟨255, 8⟩ = .ok s ∧ deserializeCode s = .ok ⟨255, 8⟩) ∧
    (∃ c, deserializeCode ['0', '7'] = .ok c ∧ serializeCode c = .ok ['0', '7']) :=
  ⟨C6_roundtrip_amended.1 ⟨255, 8⟩ (by decide) (by decide) (by decide) (by decide),
   C6_roundtrip_amended.2 ['0', '7'] (by decide) (by decide) (by decide)⟩

/-- C7, counterexample: with value 256 and length 4 the serializer emits
three characters, not length / 4 = 1, because the format only pads to a
minimum width and never truncates. -/
theorem C7_counterexample :
    serializeCode ⟨256, 4⟩ = .ok ['1', '0', '0'] ∧
    ¬(['1', '0', '0'] : List Char).length = 4 / 4 := by decide

/-- C7, amended: serialization fails with the multiple-of-4 error exactly
when length % 4 is nonzero; on success it emits the lowercase hexadecimal
form zero-padded to minimum width length / 4, which has exactly length / 4
characters whenever length is at least 4 and the value fits in length / 4
digits. -/
theorem C7_serialize_amended (c : Code) :
    (serializeCode c = .error .lengthNotMultipleOf4 ↔ c.length % 4 ≠ 0) ∧
    (c.length % 4 = 0 → 4 ≤ c.length → c.value < 16 ^ (c.length / 4) →
      ∃ s, serializeCode c = .ok s ∧ s.length = c.length / 4 ∧
        ∀ ch ∈ s, isLowerHexDigit ch = true) := by
  constructor
  · unfold serializeCode
    split
    · simp_all
    · constructor
      · intro h
        cases h
      · intro h
        simp_all
  · intro h4 hge hval
    refine ⟨toHexMinWidth c.value (c.length / 4), serializeCode_ok c h4, ?_, ?_⟩
    · exact toHexMinWidth_length c.value (c.length / 4) (by omega) hval
    · exact toHexMinWidth_all_hex c.value (c.length / 4)

/-- Witness for C7: the code (0, 12) serializes to the three characters
000. -/
theorem C7_serialize_amended_witness :
    ∃ s, serializeCode ⟨0, 12⟩ = .ok s ∧ s.length = 12 / 4 ∧
      ∀ ch ∈ s, isLowerHexDigit ch = true :=
  (C7_serialize_amended ⟨0, 12⟩).2 (by decide) (by decide) (by decide)

/-- C8, counterexample: the deserializer accepts the two-character string
+1, although the plus sign is not a hexadecimal character, and counts it
in the length: the result is value 1 with length 8. -/
theorem C8_counterexample :
    deserializeCode ['+', '1'] = .ok ⟨1, 8⟩ ∧ hexDigitVal '+' = none := by decide

/-- C8, amended: the deserializer accepts exactly the strings of 1 to 8
characters formed of an optional leading plus sign followed by at least
one hexadecimal digit (either letter case); it parses them base-16 into
the value and sets length to 4 times the character count including the
sign; longer strings fail with the too-long error and everything else
fails with a parse error (the empty string included). -/
theorem C8_deserialize_amended (s : List Char) :
    (8 < s.length → deserializeCode s = .error .tooLong) ∧
    (s.length ≤ 8 → acceptHex s = true →
      ∃ v, v < U32_MOD ∧ deserializeCode s = .ok ⟨v, s.length * 4⟩) ∧
    (s.length ≤ 8 → acceptHex s = false → deserializeCode s = .error .parseError) := by
  refine ⟨fun hlong => by unfold deserializeCode; rw [if_pos (by omega)], ?_, ?_⟩
  · intro h8 hacc
    cases s with
    | nil => simp [acceptHex] at hacc
    | cons c rest =>
      unfold deserializeCode
      rw [if_neg (by omega)]
      rw [fromStrRadix16_cons]
      rw [acceptHex_cons] at hacc
      by_cases hplus : c = '+'
      · rw [if_pos hplus] at hacc ⊢
        simp only [Bool.and_eq_true, Bool.not_eq_true'] at hacc
        obtain ⟨hne, hdig⟩ := hacc
        rw [if_neg (by simp [hne])]
        obtain ⟨v, hv⟩ := parseHexDigits_isSome rest 0 fun x hx =>
          by simpa using List.all_eq_true.mp hdig x hx
        have hvb : v < U32_MOD := by
          have hb := parseHexDigits_bound rest 0 v hv
          have hrl : rest.length ≤ 7 := by
            simp only [List.length_cons] at h8
            omega
          have hle : (16:Nat) ^ rest.length ≤ 16 ^ 7 :=
            Nat.pow_le_pow_right (by norm_num) hrl
          have : (16:Nat) ^ 7 < U32_MOD := by norm_num [U32_MOD]
          omega
        refine ⟨v, hvb, ?_⟩
        unfold parseU32Hex
        rw [hv]
        dsimp only
        rw [if_pos hvb]
      · rw [if_neg hplus] at hacc ⊢
        obtain ⟨v, hv⟩ := parseHexDigits_isSome (c :: rest) 0 fun x hx =>
          by simpa using List.all_eq_true.mp hacc x hx
        have hvb : v < U32_MOD := by
          have hb := parseHexDigits_bound (c :: rest) 0 v hv
          have hle : (16:Nat) ^ (c :: rest).length ≤ 16 ^ 8 :=
            Nat.pow_le_pow_right (by norm_num) h8
          have : (16:Nat) ^ 8 = U32_MOD := by norm_num [U32_MOD]
          omega
        refine ⟨v, hvb, ?_⟩
        unfold parseU32Hex
        rw [hv]
        dsimp only
        rw [if_pos hvb]
  · intro h8 hacc
    cases s with
    | nil => rfl
    | cons c rest =>
      unfold deserializeCode
      rw [if_neg (by omega)]
      rw [fromStrRadix16_cons]
      rw [acceptHex_cons] at hacc
      by_cases hplus : c = '+'
      · rw [if_pos hplus] at hacc ⊢
        cases hemp : rest.isEmpty with
        | true => rfl
        | false =>
          rw [if_neg (by simp [hemp])]
          rw [hemp] at hacc
          simp only [Bool.not_false, Bool.true_and] at hacc
          rcases List.all_eq_false.mp hacc with ⟨x, hx, hxf⟩
          have hnone : hexDigitVal x = none := by
            cases hxv : hexDigitVal x
            · rfl
            · rw [hxv] at hxf
              simp at hxf
          have hpn : parseHexDigits rest 0 = none :=
            (parseHexDigits_eq_none rest 0).mpr ⟨x, hx, hnone⟩
          unfold parseU32Hex
          rw [hpn]
      · rw [if_neg hplus] at hacc ⊢
        rcases List.all_eq_false.mp hacc with ⟨x, hx, hxf⟩
        have hnone : hexDigitVal x = none := by
          cases hxv : hexDigitVal x
          · rfl
          · rw [hxv] at hxf
            simp at hxf
        have : parseHexDigits (c :: rest) 0 = none :=
          (parseHexDigits_eq_none (c :: rest) 0).mpr ⟨x, hx, hnone⟩
        unfold parseU32Hex
        rw [this]

/-- Witness for C8: the two-character lowercase string ab deserializes to
value 171 with length 8. -/
theorem C8_deserialize_amended_witness :
    ∃ v, v < U32_MOD ∧ deserializeCode ['a', 'b'] = .ok ⟨v, ['a', 'b'].length * 4⟩ :=
  (C8_deserialize_amended ['a', 'b']).2.1 (by decide) (by decide)

end RfButton
